import Mathlib

/-!
Verification of the similarity-scoring core of `chamorroSearch.py`
(Chamorro dictionary fuzzy search).

The functions `lcs_sw`, `spread_RO`, `preProcess`, `search`, `ratioTest`
and `bestRatio` are shallowly embedded below, translated directly from
the Python source.  Strings are modelled as `List Char`; Python integers
as `Nat`/`Int`; Python floats as exact rationals `ℚ` (every comparison
and equality used by the claims is exact, and float division is
monotone, so the rational model is sound for them); a Python
`ZeroDivisionError` is modelled as `Option.none`.
-/

namespace ChamorroSearch

/-- Cell of the `lcs_sw` dynamic-programming grid: the Python triple
`(length, begin, end)`.  `begin`/`end` are kept as `Int` because the
Python code subtracts them with integer semantics. -/
abbrev Cell : Type := Nat × Int × Int

/-- Window span `end - begin` of a cell, the quantity the Python code
computes as `re - rb`, `de - db`, `e - b`. -/
def span (c : Cell) : Int := c.2.2 - c.2.1

/-- Transition of the `lcs_sw` grid, translated from the loop body of
`lcs_sw` (src/chamorroSearch.py lines 246-294).  `x = s1[i]`,
`y = s2[j]`, `diag = lengths[i][j]`, `up = lengths[i+1][j]` (the
Python `rlen, rb, re`), `left = lengths[i][j+1]` (the Python
`dlen, db, de`); the result is stored in `lengths[i+1][j+1]`. -/
def lcsStep (x y : Char) (i : Nat) (diag up left : Cell) : Cell :=
  if x = y then
    let b : Int := if diag.1 = 0 then (i : Int) else diag.2.1
    let l : Nat := diag.1 + 1
    let e : Int := (i : Int) + 1
    if up.1 = l ∨ left.1 = l then
      if up.1 > left.1 then
        if span up < e - b then up else (l, b, e)
      else if left.1 > up.1 then
        if span left < e - b then left else (l, b, e)
      else
        if span up < span left then up else left
    else
      (l, b, e)
  else
    if up.1 > left.1 then up
    else if left.1 > up.1 then left
    else if span up < span left then up else left

/-- Row `j+1` of the grid, built cell by cell from row `j` (`prev`),
exactly as the inner `for i, x in enumerate(s1)` loop fills
`lengths[i+1][j+1]` from `lengths[i][j]`, `lengths[i+1][j]` and the
just-written `lengths[i][j+1]`.  The argument is the column index. -/
def innerRow (s1 : List Char) (y : Char) (prev : Nat → Cell) : Nat → Cell
  | 0 => (0, 0, 0)
  | i + 1 =>
    lcsStep (s1.getD i 'a') y i (prev i) (prev (i + 1)) (innerRow s1 y prev i)

/-- Grid of `lcs_sw` as a function of the row index `j` (prefix length
of `s2`) and column index `i` (prefix length of `s1`):
`rowFn s1 s2 j i = lengths[i][j]` after the loops of `lcs_sw` have
run.  Row 0 and column 0 stay at the initial `(0, 0, 0)`. -/
def rowFn (s1 s2 : List Char) : Nat → Nat → Cell
  | 0 => fun _ => (0, 0, 0)
  | j + 1 => innerRow s1 (s2.getD j 'a') (rowFn s1 s2 j)

/-- DP cell `lengths[i][j]` of `lcs_sw s1 s2`. -/
def lcsCell (s1 s2 : List Char) (i j : Nat) : Cell :=
  rowFn s1 s2 j i

/-- Translation of `lcs_sw` (src/chamorroSearch.py lines 223-297): the
final cell is `lengths[-1][-1] = lengths[len s1][len s2]`, the result is
`(length, end - begin)`. -/
def lcs_sw (s1 s2 : List Char) : Nat × Int :=
  let c := lcsCell s1 s2 s1.length s2.length
  (c.1, c.2.2 - c.2.1)

/-- Translation of `spread_RO` (src/chamorroSearch.py lines 301-315):
`3·lcs / (len s1 + len s2 + window)`.  The Python float division raises
`ZeroDivisionError` when the denominator is `0.0`; that outcome is
modelled as `none`.  Scores are exact rationals. -/
def spread_RO (s1 s2 : List Char) : Option ℚ :=
  let p := lcs_sw s1 s2
  let numerator : ℚ := 3 * p.1
  let denominator : ℚ := (s1.length : ℚ) + (s2.length : ℚ) + (p.2 : ℚ)
  if denominator = 0 then none else some (numerator / denominator)

/-- Model of Python 2 `unicode.lower` restricted to the character
repertoire this program distinguishes: ASCII letters plus the accented
capitals corresponding to the substitution table of `preProcess`.
Characters outside this repertoire are not inspected anywhere in the
program and are left unchanged. -/
def pyLower (c : Char) : Char :=
  if c = 'A' then 'a' else if c = 'B' then 'b' else if c = 'C' then 'c'
  else if c = 'D' then 'd' else if c = 'E' then 'e' else if c = 'F' then 'f'
  else if c = 'G' then 'g' else if c = 'H' then 'h' else if c = 'I' then 'i'
  else if c = 'J' then 'j' else if c = 'K' then 'k' else if c = 'L' then 'l'
  else if c = 'M' then 'm' else if c = 'N' then 'n' else if c = 'O' then 'o'
  else if c = 'P' then 'p' else if c = 'Q' then 'q' else if c = 'R' then 'r'
  else if c = 'S' then 's' else if c = 'T' then 't' else if c = 'U' then 'u'
  else if c = 'V' then 'v' else if c = 'W' then 'w' else if c = 'X' then 'x'
  else if c = 'Y' then 'y' else if c = 'Z' then 'z'
  else if c = 'Ñ' then 'ñ' else if c = 'Á' then 'á' else if c = 'É' then 'é'
  else if c = 'Í' then 'í' else if c = 'Ó' then 'ó' else if c = 'Ú' then 'ú'
  else c

/-- Python `word.replace(find, replace)` for single characters. -/
def pyReplace (w : List Char) (find repl : Char) : List Char :=
  w.map fun c => if c = find then repl else c

/-- The ASCII apostrophe, the replacement for the right single
quotation mark. -/
def apostrophe : Char := Char.ofNat 39

/-- Substitution table of `preProcess` (src/chamorroSearch.py lines
152-160). -/
def substitutions : List (Char × Char) :=
  [('’', apostrophe), ('é', 'e'), ('í', 'i'), ('ó', 'o'), ('ú', 'u'),
   ('á', 'a'), ('Ñ', 'ñ')]

/-- Translation of `preProcess` (src/chamorroSearch.py lines 136-163):
lower-case the word, then apply the substitutions in order. -/
def preProcess (word : List Char) : List Char :=
  substitutions.foldl (fun w p => pyReplace w p.1 p.2) (word.map pyLower)

/-- Translation of `search` (src/chamorroSearch.py lines 325-332): score
every entry key (normalized) against the normalized query, rank by
descending score (`Counter.most_common(n)` is a stable sort by value,
descending, truncated to `n`, empty for `n ≤ 0`), and return the top
entries.  A `ZeroDivisionError` in the scorer aborts the call (`none`). -/
def search {α : Type} (query : List Char) (dictionary : List (List Char × α))
    (n : Int) : Option (List (List Char × α)) :=
  let q := preProcess query
  (dictionary.mapM fun kv =>
      (spread_RO (preProcess kv.1) q).map fun r => (kv, r)).map
    fun ms =>
      ((ms.insertionSort fun a b => b.2 ≤ a.2).take n.toNat).map Prod.fst

namespace Difflib

/-!
Model of the external `difflib.SequenceMatcher` used by `ratioTest` and
`bestRatio`, transcribed from the CPython `difflib` source for the
configuration the program uses (`isjunk = None`, `autojunk = False`,
so no junk and no popular-element heuristic).  The `while` extension
loops are given explicit fuel that dominates their iteration counts.
-/

/-- The `b2j` table of `SequenceMatcher`: positions of `c` in `b`,
ascending. -/
def b2j (b : List Char) (c : Char) : List Nat :=
  (List.range b.length).filter fun j => b.getD j 'a' == c

/-- Lookup in an association list with default 0 (a Python
`dict.get(k, 0)`). -/
def lookupD (al : List (Nat × Nat)) (k : Nat) : Nat :=
  match al.find? fun p => p.1 == k with
  | some p => p.2
  | none => 0

/-- State `(besti, bestj, bestsize)` of `find_longest_match`. -/
structure Best where
  besti : Nat
  bestj : Nat
  bestsize : Nat
deriving DecidableEq

/-- Inner loop of `find_longest_match` over the candidate positions `js`
of `a[i]` in `b` (already restricted to `[blo, bhi)`; the Python
`continue`/`break` amount to that restriction since `b2j` is
ascending).  `k = j2len.get(j-1, 0) + 1`, where a lookup at `-1`
yields 0. -/
def flmJs (j2old : List (Nat × Nat)) (i : Nat) :
    List Nat → List (Nat × Nat) → Best → List (Nat × Nat) × Best
  | [], nw, best => (nw, best)
  | j :: js, nw, best =>
    let k := (if j = 0 then 0 else lookupD j2old (j - 1)) + 1
    let best := if best.bestsize < k then ⟨i + 1 - k, j + 1 - k, k⟩ else best
    flmJs j2old i js ((j, k) :: nw) best

/-- Outer loop of `find_longest_match` over `i ∈ [alo, ahi)`. -/
def flmOuter (a b : List Char) (blo bhi : Nat) :
    List Nat → List (Nat × Nat) → Best → Best
  | [], _, best => best
  | i :: rest, j2old, best =>
    let js := (b2j b (a.getD i 'a')).filter fun j => decide (blo ≤ j ∧ j < bhi)
    let p := flmJs j2old i js [] best
    flmOuter a b blo bhi rest p.1 p.2

/-- First extension loop of `find_longest_match` (no junk): grow the
block downwards while the preceding characters match. -/
def extendLower (a b : List Char) (alo blo : Nat) : Nat → Best → Best
  | 0, best => best
  | fuel + 1, best =>
    if alo < best.besti ∧ blo < best.bestj ∧
        a.getD (best.besti - 1) 'a' = b.getD (best.bestj - 1) 'a' then
      extendLower a b alo blo fuel
        ⟨best.besti - 1, best.bestj - 1, best.bestsize + 1⟩
    else best

/-- Second extension loop of `find_longest_match` (no junk): grow the
block upwards while the following characters match. -/
def extendUpper (a b : List Char) (ahi bhi : Nat) : Nat → Best → Best
  | 0, best => best
  | fuel + 1, best =>
    if best.besti + best.bestsize < ahi ∧ best.bestj + best.bestsize < bhi ∧
        a.getD (best.besti + best.bestsize) 'a' =
          b.getD (best.bestj + best.bestsize) 'a' then
      extendUpper a b ahi bhi fuel ⟨best.besti, best.bestj, best.bestsize + 1⟩
    else best

/-- `find_longest_match(alo, ahi, blo, bhi)` with `a = seq1`,
`b = seq2`. -/
def findLongestMatch (a b : List Char) (alo ahi blo bhi : Nat) : Best :=
  let best := flmOuter a b blo bhi (List.range' alo (ahi - alo)) [] ⟨alo, blo, 0⟩
  let best := extendLower a b alo blo best.besti best
  extendUpper a b ahi bhi ahi best

/-- Total size of the matching blocks of `get_matching_blocks`,
obtained by the usual Ratcliff-Obershelp recursion (the Python queue
just linearizes this recursion; the sum is the same).  The fuel
dominates the recursion depth. -/
def matchTotal (a b : List Char) : Nat → Nat → Nat → Nat → Nat → Nat
  | _, _, _, _, 0 => 0
  | alo, ahi, blo, bhi, fuel + 1 =>
    let m := findLongestMatch a b alo ahi blo bhi
    if m.bestsize = 0 then 0
    else
      matchTotal a b alo m.besti blo m.bestj fuel + m.bestsize +
        matchTotal a b (m.besti + m.bestsize) ahi (m.bestj + m.bestsize) bhi fuel

/-- Number of matched characters reported by
`SequenceMatcher.get_matching_blocks` over the whole strings. -/
def matchesTotal (a b : List Char) : Nat :=
  matchTotal a b 0 a.length 0 b.length (a.length + b.length + 1)

/-- difflib `_calculate_ratio(matches, length)`: `2.0 * matches /
length`, and 1.0 when `length == 0`. -/
def calculateRatio (m len : Nat) : ℚ :=
  if len = 0 then 1 else 2 * (m : ℚ) / (len : ℚ)

/-- `SequenceMatcher.ratio()` with `a = seq1`, `b = seq2`. -/
def ratio (a b : List Char) : ℚ :=
  calculateRatio (matchesTotal a b) (a.length + b.length)

end Difflib

/-- Translation of `ratioTest` (src/chamorroSearch.py lines 216-220):
`seq1 = query`, `seq2 = inflected`, then `ratio()`. -/
def ratioTest (query inflected : List Char) : ℚ :=
  Difflib.ratio query inflected

/-- Translation of `bestRatio` (src/chamorroSearch.py lines 184-213):
starting from 0.0, take the maximum over `w1 ∈ wordList1` (set as
`seq2`) and `w2 ∈ wordList2` (set as `seq1`) of `ratio()`. -/
def bestRatio (wordList1 wordList2 : List (List Char)) : ℚ :=
  wordList1.foldl
    (fun acc w1 => wordList2.foldl (fun acc w2 => max (Difflib.ratio w2 w1) acc) acc)
    0

section SpecSide

/-- Specification-side helper: `isSubseqB t s` decides whether `t` is a
subsequence of `s` (characters of `t` occur in `s` in order). -/
def isSubseqB : List Char → List Char → Bool
  | [], _ => true
  | _ :: _, [] => false
  | a :: t, b :: u => if a = b then isSubseqB t u else isSubseqB (a :: t) u

/-- Specification-side definition: the length of a longest common
subsequence of `s1` and `s2`, as the maximum length over all sublists
of `s1` that are also subsequences of `s2`. -/
def lcsSpecLen (s1 s2 : List Char) : Nat :=
  ((s1.sublists.filter fun t => isSubseqB t s2).map List.length).foldr max 0

/-- Specification-side helper: is there a contiguous substring of `s1`
of length `w` whose longest common subsequence with `s2` still has
length at least `L`? -/
def windowOK (s1 s2 : List Char) (L w : Nat) : Bool :=
  (List.range (s1.length + 1)).any fun a =>
    decide (L ≤ lcsSpecLen ((s1.drop a).take w) s2)

/-- Specification-side definition (modelled from the spec: "`window` is
the length of the shortest contiguous substring of `s1` that contains
the characters of some longest common subsequence, in order; when
`length == 0`, `window` is 0"). -/
def minWindowSpec (s1 s2 : List Char) : Nat :=
  let L := lcsSpecLen s1 s2
  if L = 0 then 0
  else ((List.range (s1.length + 1)).filter (windowOK s1 s2 L)).headD s1.length

/-- Transition rule described by the spec for the match case when both
neighbors tie the candidate in length (modelled from the spec: "when
both neighbors tie the candidate in length, first resolve between the
two neighbors by smaller window, then compare that winner against the
candidate", the winner of each comparison being the cell of strictly
smaller span, the second cell otherwise). Outside that situation it
agrees with `lcsStep`. -/
def specMatchStep (x y : Char) (i : Nat) (diag up left : Cell) : Cell :=
  if x = y then
    let b : Int := if diag.1 = 0 then (i : Int) else diag.2.1
    let l : Nat := diag.1 + 1
    let e : Int := (i : Int) + 1
    if up.1 = l ∧ left.1 = l then
      let winner := if span up < span left then up else left
      if span winner < e - b then winner else (l, b, e)
    else lcsStep x y i diag up left
  else lcsStep x y i diag up left

end SpecSide

/-- Structural invariant of a DP cell at position `(i, j)`. -/
def CellInv (i j : Nat) (c : Cell) : Prop :=
  c.1 ≤ min i j ∧ 0 ≤ c.2.1 ∧ c.2.1 ≤ c.2.2 ∧ c.2.2 ≤ (i : Int) ∧
    (c.1 : Int) ≤ c.2.2 - c.2.1 ∧ (c.1 = 0 → c.2.1 = c.2.2)

/-- In-row relation for the length component along row `j`. -/
def RowRel (s1 s2 : List Char) (j : Nat) : Prop :=
  ∀ i, (lcsCell s1 s2 (i + 1) j).1 ≤ (lcsCell s1 s2 i j).1 + 1 ∧
       (lcsCell s1 s2 i j).1 ≤ (lcsCell s1 s2 (i + 1) j).1

/-- Between-rows relation for the length component at column `i`. -/
def ColRel (s1 s2 : List Char) (j i : Nat) : Prop :=
  (lcsCell s1 s2 i (j + 1)).1 ≤ (lcsCell s1 s2 i j).1 + 1 ∧
       (lcsCell s1 s2 i j).1 ≤ (lcsCell s1 s2 i (j + 1)).1

/-- Score assigned by `search` to an entry, as a total function (under
the no-crash hypothesis it is the value the code computes). -/
def searchScore {α : Type} (query : List Char) (kv : List Char × α) : ℚ :=
  (spread_RO (preProcess kv.1) (preProcess query)).getD 0

/-- Per-character action of one substitution pair. -/
def substCharStep (c : Char) (p : Char × Char) : Char :=
  if c = p.1 then p.2 else c

/-- Per-character action of `preProcess`: lower-casing followed by the
seven substitutions in table order. -/
def preChar (c : Char) : Char :=
  substitutions.foldl substCharStep (pyLower c)

/-- Characters that `preChar` can move. -/
def triggers : List Char := ['A', 'B', 'C', 'D', 'E', 'F', 'G', 'H', 'I', 'J', 'K', 'L', 'M', 'N', 'O', 'P', 'Q', 'R', 'S', 'T', 'U', 'V', 'W', 'X', 'Y', 'Z', 'Ñ', 'Á', 'É', 'Í', 'Ó', 'Ú', '’', 'é', 'í', 'ó', 'ú', 'á']


theorem lcsCell_zero_j (s1 s2 : List Char) (i : Nat) : lcsCell s1 s2 i 0 = (0, 0, 0) := rfl

theorem lcsCell_zero_i (s1 s2 : List Char) (j : Nat) : lcsCell s1 s2 0 j = (0, 0, 0) := by
  cases j <;> rfl

theorem lcsCell_succ (s1 s2 : List Char) (i j : Nat) :
    lcsCell s1 s2 (i + 1) (j + 1) =
      lcsStep (s1.getD i 'a') (s2.getD j 'a') i (lcsCell s1 s2 i j)
        (lcsCell s1 s2 (i + 1) j) (lcsCell s1 s2 i (j + 1)) := rfl


theorem lcsStep_inv (x y : Char) (i j : Nat) (diag up left : Cell)
    (hd : CellInv i j diag) (hu : CellInv (i + 1) j up)
    (hl : CellInv i (j + 1) left) :
    CellInv (i + 1) (j + 1) (lcsStep x y i diag up left) := by
  obtain ⟨dl, db, de⟩ := diag
  obtain ⟨ul, ub, ue⟩ := up
  obtain ⟨ll, lb, le⟩ := left
  unfold CellInv at hd hu hl ⊢
  simp only [lcsStep, span]
  split_ifs <;>
    refine ⟨?_, ?_, ?_, ?_, ?_, fun h => ?_⟩ <;>
    simp only at * <;> omega

theorem cellInv (s1 s2 : List Char) : ∀ j i, CellInv i j (lcsCell s1 s2 i j) := by
  intro j
  induction j with
  | zero =>
    intro i
    rw [lcsCell_zero_j]
    refine ⟨?_, ?_, ?_, ?_, ?_, fun _ => ?_⟩ <;> simp
  | succ j ihj =>
    intro i
    induction i with
    | zero =>
      rw [lcsCell_zero_i]
      refine ⟨?_, ?_, ?_, ?_, ?_, fun _ => ?_⟩ <;> simp
    | succ i ihi =>
      rw [lcsCell_succ]
      exact lcsStep_inv _ _ i j _ _ _ (ihj i) (ihj (i + 1)) ihi


theorem lcsStep_len (x y : Char) (i : Nat) (diag up left : Cell)
    (hu : up.1 ≤ diag.1 + 1) (hl : left.1 ≤ diag.1 + 1) :
    (lcsStep x y i diag up left).1 =
      if x = y then diag.1 + 1 else max up.1 left.1 := by
  obtain ⟨dl, db, de⟩ := diag
  obtain ⟨ul, ub, ue⟩ := up
  obtain ⟨ll, lb, le⟩ := left
  simp only at hu hl
  simp only [lcsStep, span]
  split_ifs <;> simp only at * <;> omega



theorem rowRel_zero (s1 s2 : List Char) : RowRel s1 s2 0 := by
  intro i
  rw [lcsCell_zero_j, lcsCell_zero_j]
  exact ⟨by omega, by omega⟩

theorem rowRel_step (s1 s2 : List Char) (j : Nat) (hr : RowRel s1 s2 j) :
    ∀ i, ColRel s1 s2 j i ∧
      ((lcsCell s1 s2 (i + 1) (j + 1)).1 ≤ (lcsCell s1 s2 i (j + 1)).1 + 1 ∧
       (lcsCell s1 s2 i (j + 1)).1 ≤ (lcsCell s1 s2 (i + 1) (j + 1)).1) := by
  intro i
  induction i with
  | zero =>
    have hz : ColRel s1 s2 j 0 := by
      constructor <;> simp [lcsCell_zero_i]
    refine ⟨hz, ?_⟩
    have h0 := hr 0
    rw [lcsCell_succ, lcsStep_len _ _ _ _ _ _ h0.1 hz.1]
    simp only [lcsCell_zero_i] at h0 ⊢
    constructor <;> split_ifs <;> simp only at * <;> omega
  | succ i ih =>
    obtain ⟨⟨hc1, hc2⟩, hw1, hw2⟩ := ih
    have h1 := hr i
    have h2 := hr (i + 1)
    have hcol : ColRel s1 s2 j (i + 1) := by
      rw [ColRel, lcsCell_succ, lcsStep_len _ _ _ _ _ _ h1.1 hc1]
      constructor <;> split_ifs <;> omega
    obtain ⟨hd1, hd2⟩ := hcol
    refine ⟨⟨hd1, hd2⟩, ?_⟩
    rw [lcsCell_succ s1 s2 (i + 1) j, lcsStep_len _ _ _ _ _ _ h2.1 hd1]
    constructor <;> split_ifs <;> omega

theorem rowRel_all (s1 s2 : List Char) : ∀ j, RowRel s1 s2 j := by
  intro j
  induction j with
  | zero => exact rowRel_zero s1 s2
  | succ j ih => exact fun i => ((rowRel_step s1 s2 j ih) i).2

theorem colRel_all (s1 s2 : List Char) (j i : Nat) : ColRel s1 s2 j i :=
  ((rowRel_step s1 s2 j (rowRel_all s1 s2 j)) i).1

/-- The length component of the DP satisfies the classic longest common
subsequence recurrence. -/
theorem lcsCell_len_succ (s1 s2 : List Char) (i j : Nat) :
    (lcsCell s1 s2 (i + 1) (j + 1)).1 =
      if s1.getD i 'a' = s2.getD j 'a' then (lcsCell s1 s2 i j).1 + 1
      else max (lcsCell s1 s2 (i + 1) j).1 (lcsCell s1 s2 i (j + 1)).1 := by
  rw [lcsCell_succ, lcsStep_len _ _ _ _ _ _ (rowRel_all s1 s2 j i).1 (colRel_all s1 s2 j i).1]

/-- The length component of the DP is symmetric in the two strings. -/
theorem lcsCell_len_symm (s1 s2 : List Char) : ∀ j i,
    (lcsCell s1 s2 i j).1 = (lcsCell s2 s1 j i).1 := by
  intro j
  induction j with
  | zero =>
    intro i
    rw [lcsCell_zero_j, lcsCell_zero_i]
  | succ j ihj =>
    intro i
    induction i with
    | zero =>
      rw [lcsCell_zero_i, lcsCell_zero_j]
    | succ i ihi =>
      rw [lcsCell_len_succ, lcsCell_len_succ]
      by_cases h : s1.getD i 'a' = s2.getD j 'a'
      · rw [if_pos h, if_pos h.symm, ihj i]
      · rw [if_neg h, if_neg (fun hh => h hh.symm), ihj (i + 1), ihi, Nat.max_comm]

/-- On the diagonal for equal strings the DP cell is `(i, 0, i)`. -/
theorem lcsCell_diag (s : List Char) : ∀ i, lcsCell s s i i = (i, 0, (i : Int)) := by
  intro i
  induction i with
  | zero => rfl
  | succ i ih =>
    have h1 : (lcsCell s s (i + 1) i).1 ≤ i := by
      have := (cellInv s s i (i + 1)).1
      omega
    have h2 : (lcsCell s s i (i + 1)).1 ≤ i := by
      have := (cellInv s s (i + 1) i).1
      omega
    rw [lcsCell_succ, ih]
    simp only [lcsStep, span]
    rw [if_pos trivial, if_neg (by omega)]
    split_ifs with h
    · subst h; simp
    · simp

/-- Identity behaviour of the scorer on equal strings. -/
theorem spread_RO_self (s : List Char) (h : s ≠ []) :
    spread_RO s s = some 1 ∧ lcs_sw s s = (s.length, (s.length : Int)) := by
  have hsw : lcs_sw s s = (s.length, (s.length : Int)) := by
    simp [lcs_sw, lcsCell_diag s s.length]
  have hn : 0 < s.length := List.length_pos.mpr h
  refine ⟨?_, hsw⟩
  have hq : (0 : ℚ) < (s.length : ℚ) := by exact_mod_cast hn
  have hden : ((s.length : ℚ) + (s.length : ℚ) + (((s.length : Int) : ℚ))) ≠ 0 := by
    push_cast
    linarith
  rw [spread_RO]
  simp only [hsw, if_neg hden]
  congr 1
  push_cast
  field_simp
  ring

/-- The code tie-break rule in the match case when both neighbors tie the
candidate in length: the winner among the two neighbors by smaller span
is taken, without any comparison against the candidate. -/
theorem lcsStep_tie_rule (x y : Char) (i : Nat) (diag up left : Cell)
    (hxy : x = y) (hu : up.1 = diag.1 + 1) (hl : left.1 = diag.1 + 1) :
    lcsStep x y i diag up left = if span up < span left then up else left := by
  obtain ⟨dl, db, de⟩ := diag
  obtain ⟨ul, ub, ue⟩ := up
  obtain ⟨ll, lb, le⟩ := left
  simp only at hu hl
  simp only [lcsStep, span]
  rw [if_pos hxy]
  split_ifs <;> first | rfl | (exfalso; omega)

theorem lcs_sw_bounds (s1 s2 : List Char) (i j : Nat)
    (hi : i ≤ s1.length) (hj : j ≤ s2.length) :
    (lcs_sw s1 s2).1 ≤ min s1.length s2.length ∧
    ((lcs_sw s1 s2).2 = 0 ↔ (lcs_sw s1 s2).1 = 0) ∧
    (0 < (lcs_sw s1 s2).1 →
      ((lcs_sw s1 s2).1 : Int) ≤ (lcs_sw s1 s2).2 ∧
        (lcs_sw s1 s2).2 ≤ (s1.length : Int)) ∧
    ((lcsCell s1 s2 i j).1 : Int) ≤
        (lcsCell s1 s2 i j).2.2 - (lcsCell s1 s2 i j).2.1 ∧
    (lcsCell s1 s2 i j).2.1 ≤ (lcsCell s1 s2 i j).2.2 := by
  have hfin := cellInv s1 s2 s2.length s1.length
  have hij := cellInv s1 s2 j i
  unfold CellInv at hfin hij
  simp only [lcs_sw]
  refine ⟨?_, ?_, fun h => ⟨?_, ?_⟩, ?_, ?_⟩ <;> omega

theorem lcs_sw_len_symm :
    (∀ s1 s2 : List Char, (lcs_sw s1 s2).1 = (lcs_sw s2 s1).1) ∧
    (lcs_sw "abbc".toList "ac".toList).2 ≠ (lcs_sw "ac".toList "abbc".toList).2 := by
  constructor
  · intro s1 s2
    simp only [lcs_sw]
    exact lcsCell_len_symm s1 s2 s2.length s1.length
  · decide

/-- The scorer raises (returns `none`) exactly when both strings are
empty. -/
theorem spread_RO_none_iff (s1 s2 : List Char) :
    spread_RO s1 s2 = none ↔ (s1 = [] ∧ s2 = []) := by
  have hw : (0 : Int) ≤ (lcs_sw s1 s2).2 := by
    have hinv := cellInv s1 s2 s2.length s1.length
    unfold CellInv at hinv
    simp only [lcs_sw]
    omega
  have hwq : (0 : ℚ) ≤ (((lcs_sw s1 s2).2 : Int) : ℚ) := by exact_mod_cast hw
  have hkey : ((s1.length : ℚ) + (s2.length : ℚ) + (((lcs_sw s1 s2).2 : Int) : ℚ)) = 0 ↔
      (s1 = [] ∧ s2 = []) := by
    constructor
    · intro h
      have h1 : (0 : ℚ) ≤ (s1.length : ℚ) := by positivity
      have h2 : (0 : ℚ) ≤ (s2.length : ℚ) := by positivity
      have e1 : (s1.length : ℚ) = 0 := by linarith
      have e2 : (s2.length : ℚ) = 0 := by linarith
      constructor
      · rw [← List.length_eq_zero]; exact_mod_cast e1
      · rw [← List.length_eq_zero]; exact_mod_cast e2
    · rintro ⟨rfl, rfl⟩
      have h0 : lcs_sw ([] : List Char) [] = (0, 0) := by decide
      rw [h0]
      norm_num
  unfold spread_RO
  simp only
  split_ifs with hden
  · simp [hkey.mp hden]
  · constructor
    · intro hc
      exact absurd hc (by simp)
    · rintro ⟨rfl, rfl⟩
      exact absurd (hkey.mpr ⟨rfl, rfl⟩) hden


theorem mapM_scores {α : Type} (query : List Char) :
    ∀ d : List (List Char × α),
      (∀ kv ∈ d, ¬(preProcess kv.1 = [] ∧ preProcess query = [])) →
      (d.mapM fun kv =>
          (spread_RO (preProcess kv.1) (preProcess query)).map fun r => (kv, r)) =
        some (d.map fun kv => (kv, searchScore query kv)) := by
  intro d
  induction d with
  | nil => intro _; rfl
  | cons kv tl ih =>
    intro h
    have h1 := h kv (List.mem_cons_self kv tl)
    have hs : spread_RO (preProcess kv.1) (preProcess query) ≠ none := by
      intro hc
      exact h1 ((spread_RO_none_iff _ _).mp hc)
    obtain ⟨r, hr⟩ := Option.ne_none_iff_exists'.mp hs
    rw [List.mapM_cons, hr, ih fun x hx => h x (List.mem_cons_of_mem kv hx)]
    simp [searchScore, hr]

theorem search_spec {α : Type} (query : List Char) (d : List (List Char × α))
    (n : Int) (h : ∀ kv ∈ d, ¬(preProcess kv.1 = [] ∧ preProcess query = [])) :
    ∃ l, search query d n = some l ∧
      (0 ≤ n → l.length = min n.toNat d.length) ∧
      (n ≤ 0 → l = []) ∧
      l.Pairwise (fun a b => searchScore query b ≤ searchScore query a) ∧
      (∀ a ∈ l, a ∈ d) ∧
      (∀ a ∈ l, ∀ b ∈ d, b ∉ l → searchScore query b ≤ searchScore query a) := by
  have hmap := mapM_scores query d h
  simp only [search]
  rw [hmap]
  simp only [Option.map_some']
  set f := searchScore query with hf
  set ms := d.map fun kv => (kv, f kv) with hms
  set R : (List Char × α) × ℚ → (List Char × α) × ℚ → Prop :=
    fun a b => b.2 ≤ a.2 with hR
  haveI : IsTotal ((List Char × α) × ℚ) R := ⟨fun a b => le_total b.2 a.2⟩
  haveI : IsTrans ((List Char × α) × ℚ) R := ⟨fun a b c h1 h2 => le_trans h2 h1⟩
  set sorted := ms.insertionSort R with hsorteddef
  set k := n.toNat with hk
  refine ⟨((sorted.take k).map Prod.fst), rfl, ?_, ?_, ?_, ?_, ?_⟩
  · intro _
    simp [hsorteddef, hms, List.length_take]
  · intro hn
    have : k = 0 := Int.toNat_of_nonpos hn
    simp [this]
  · have hsorted : sorted.Pairwise R := List.sorted_insertionSort R ms
    have htake : (sorted.take k).Pairwise R :=
      List.Pairwise.sublist (List.take_sublist k sorted) hsorted
    rw [List.pairwise_map]
    refine htake.imp_of_mem ?_
    intro a b ha hb hr
    have hma : a ∈ ms := (List.mem_insertionSort R).mp (List.mem_of_mem_take ha)
    have hmb : b ∈ ms := (List.mem_insertionSort R).mp (List.mem_of_mem_take hb)
    obtain ⟨ka, _, hka⟩ := List.mem_map.mp hma
    obtain ⟨kb, _, hkb⟩ := List.mem_map.mp hmb
    rw [← hka, ← hkb] at hr ⊢
    exact hr
  · intro a ha
    obtain ⟨x, hx, hxa⟩ := List.mem_map.mp ha
    have hxm : x ∈ ms := (List.mem_insertionSort R).mp (List.mem_of_mem_take hx)
    obtain ⟨kv, hkv, hkvx⟩ := List.mem_map.mp hxm
    rw [← hxa, ← hkvx]
    exact hkv
  · intro a ha b hb hbl
    obtain ⟨x, hx, hxa⟩ := List.mem_map.mp ha
    have hxm : x ∈ ms := (List.mem_insertionSort R).mp (List.mem_of_mem_take hx)
    obtain ⟨kv, _, hkvx⟩ := List.mem_map.mp hxm
    have hx2 : x.2 = f x.1 := by rw [← hkvx]
    have hsorted : sorted.Pairwise R := List.sorted_insertionSort R ms
    have hsplit : sorted.take k ++ sorted.drop k = sorted := List.take_append_drop k sorted
    have hpa := (List.pairwise_append.mp (hsplit ▸ hsorted)).2.2
    have hbms : (b, f b) ∈ ms := List.mem_map_of_mem _ hb
    have hbsorted : (b, f b) ∈ sorted := (List.mem_insertionSort R).mpr hbms
    rcases List.mem_append.mp (hsplit ▸ hbsorted) with htk | hdr
    · exact absurd (List.mem_map_of_mem Prod.fst htk) hbl
    · have hrel := hpa x hx (b, f b) hdr
      have : f b ≤ x.2 := hrel
      rw [hx2] at this
      rw [← hxa]
      exact this

theorem foldl_mono_ge {β : Type} (step : ℚ → β → ℚ) (hstep : ∀ a x, a ≤ step a x) :
    ∀ (l : List β) (acc : ℚ), acc ≤ l.foldl step acc
  | [], acc => le_refl acc
  | x :: l, acc => le_trans (hstep acc x) (foldl_mono_ge step hstep l (step acc x))

theorem foldl_max_ge_mem {β : Type} (g : β → ℚ) (l : List β) (acc : ℚ) :
    ∀ x ∈ l, g x ≤ l.foldl (fun a x => max (g x) a) acc := by
  induction l generalizing acc with
  | nil => intro x hx; simp at hx
  | cons y l ih =>
    intro x hx
    rcases List.mem_cons.mp hx with rfl | hx
    · exact le_trans (le_max_left (g x) acc)
        (foldl_mono_ge _ (fun a z => le_max_right (g z) a) l _)
    · exact ih _ x hx

theorem foldl_max_cases {β : Type} (g : β → ℚ) (l : List β) :
    ∀ acc : ℚ, l.foldl (fun a x => max (g x) a) acc = acc ∨
      ∃ x ∈ l, l.foldl (fun a x => max (g x) a) acc = g x := by
  induction l with
  | nil => intro acc; exact Or.inl rfl
  | cons y l ih =>
    intro acc
    rcases ih (max (g y) acc) with h | ⟨x, hx, hh⟩
    · rcases le_total acc (g y) with hc | hc
      · exact Or.inr ⟨y, List.mem_cons_self y l,
          by rw [List.foldl_cons, h, max_eq_left hc]⟩
      · exact Or.inl (by rw [List.foldl_cons, h, max_eq_right hc])
    · exact Or.inr ⟨x, List.mem_cons_of_mem y hx, by rw [List.foldl_cons]; exact hh⟩

theorem foldl_best_cases (l2 : List (List Char)) (l1 : List (List Char)) :
    ∀ acc : ℚ,
      l1.foldl (fun acc w1 =>
        l2.foldl (fun acc w2 => max (Difflib.ratio w2 w1) acc) acc) acc = acc ∨
      ∃ w1 ∈ l1, ∃ w2 ∈ l2,
        l1.foldl (fun acc w1 =>
          l2.foldl (fun acc w2 => max (Difflib.ratio w2 w1) acc) acc) acc =
          Difflib.ratio w2 w1 := by
  induction l1 with
  | nil => intro acc; exact Or.inl rfl
  | cons y l ih =>
    intro acc
    rcases ih (l2.foldl (fun acc w2 => max (Difflib.ratio w2 y) acc) acc) with h | h
    · rw [List.foldl_cons, h]
      rcases foldl_max_cases (fun w2 => Difflib.ratio w2 y) l2 acc with h2 | ⟨x, hx, h2⟩
      · exact Or.inl h2
      · exact Or.inr ⟨y, List.mem_cons_self y l, x, hx, h2⟩
    · obtain ⟨w1, hw1, w2, hw2, hh⟩ := h
      exact Or.inr ⟨w1, List.mem_cons_of_mem y hw1, w2, hw2,
        by rw [List.foldl_cons]; exact hh⟩



theorem foldl_pyReplace (subs : List (Char × Char)) :
    ∀ w : List Char, subs.foldl (fun w p => pyReplace w p.1 p.2) w =
      w.map fun c => subs.foldl substCharStep c := by
  induction subs with
  | nil => intro w; simp
  | cons p subs ih =>
    intro w
    rw [List.foldl_cons, ih (pyReplace w p.1 p.2)]
    simp only [pyReplace, List.map_map]
    exact List.map_congr_left fun c _ => by rw [List.foldl_cons]; rfl

theorem preProcess_eq_map (w : List Char) : preProcess w = w.map preChar := by
  unfold preProcess
  rw [foldl_pyReplace substitutions (w.map pyLower), List.map_map]
  exact List.map_congr_left fun c _ => by simp only [Function.comp_apply, preChar]


theorem preChar_of_not_trigger (c : Char) (h : c ∉ triggers) : preChar c = c := by
  simp only [triggers, List.mem_cons, List.not_mem_nil, or_false, not_or] at h
  simp_all [preChar, pyLower, substitutions, substCharStep]

theorem preChar_trigger : ∀ c ∈ triggers, preChar (preChar c) = preChar c := by
  decide

theorem preChar_idem (c : Char) : preChar (preChar c) = preChar c := by
  by_cases hc : c ∈ triggers
  · exact preChar_trigger c hc
  · rw [preChar_of_not_trigger c hc, preChar_of_not_trigger c hc]

/-- C1: at `s1 = "aab"`, `s2 = "acb"` the code returns window 3, while
the length of a longest common subsequence is 2 and the shortest
contiguous substring of `s1` containing a longest common subsequence
("ab" at positions 1-2) has length 2: the returned window is not
minimal, contradicting the claim (and the function docstring). -/
theorem c1_lcs_sw_window_not_minimal :
    lcs_sw "aab".toList "acb".toList = (2, 3) ∧
    lcsSpecLen "aab".toList "acb".toList = 2 ∧
    minWindowSpec "aab".toList "acb".toList = 2 := by decide

/-- C2: the six worked examples of the spec are reproduced exactly. -/
theorem c2_worked_examples :
    lcs_sw "abc".toList "ac".toList = (2, 3) ∧
    lcs_sw "abbc".toList "ac".toList = (2, 4) ∧
    lcs_sw "acabc".toList "ac".toList = (2, 2) ∧
    lcs_sw "abcac".toList "ac".toList = (2, 2) ∧
    lcs_sw "abacbc".toList "ac".toList = (2, 2) ∧
    lcs_sw "adbc".toList "abc".toList = (3, 4) := by decide

/-- C3 counterexample: at a match transition where both neighbors tie the
candidate in length, the code takes the min-span neighbor `(2,0,4)` while
the spec-described rule (resolve neighbors, then compare the winner with
the candidate by span) yields the candidate `(2,0,2)`. -/
theorem c3_counterexample :
    lcsStep 'a' 'a' 1 (1, 0, 1) (2, 0, 5) (2, 0, 4) ≠
      specMatchStep 'a' 'a' 1 (1, 0, 1) (2, 0, 5) (2, 0, 4) ∧
    lcsStep 'a' 'a' 1 (1, 0, 1) (2, 0, 5) (2, 0, 4) = (2, 0, 4) ∧
    specMatchStep 'a' 'a' 1 (1, 0, 1) (2, 0, 5) (2, 0, 4) = (2, 0, 2) := by decide

/-- C3 (amended): in the match case, when both the cell above and the
cell to the left have the same length as the diagonal-extension
candidate, the new cell value is whichever of the two neighbors has the
smaller window span (the left cell on a span tie); the candidate is not
compared against that winner. -/
theorem c3_match_tie_takes_neighbor (x y : Char) (i : Nat)
    (diag up left : Cell) (hxy : x = y)
    (hu : up.1 = diag.1 + 1) (hl : left.1 = diag.1 + 1) :
    lcsStep x y i diag up left = if span up < span left then up else left :=
  lcsStep_tie_rule x y i diag up left hxy hu hl

/-- C3 witness: the amended rule evaluated at a concrete tie. -/
theorem c3_match_tie_takes_neighbor_witness :
    lcsStep 'a' 'a' 0 (0, 0, 0) (1, 0, 3) (1, 0, 2) = (1, 0, 2) := by
  have h := c3_match_tie_takes_neighbor 'a' 'a' 0 (0, 0, 0) (1, 0, 3) (1, 0, 2)
    rfl (by decide) (by decide)
  rw [h]
  decide

/-- C4 counterexample: on two empty strings the code divides `0.0/0.0`
and raises `ZeroDivisionError` (modelled as `none`) instead of
returning 0. -/
theorem c4_counterexample :
    spread_RO [] [] = none ∧ (none : Option ℚ) ≠ some 0 := by
  refine ⟨(spread_RO_none_iff [] []).mpr ⟨rfl, rfl⟩, ?_⟩
  intro hc
  exact Option.noConfusion hc

/-- C4 (amended): whenever at least one of the strings is non-empty,
`spread_RO` returns `3·length / (|s1| + |s2| + window)`, and returns 0
whenever `length = 0`; when both strings are empty the division `0/0`
raises instead of returning 0. -/
theorem c4_spread_RO_defined (s1 s2 : List Char) (h : s1 ≠ [] ∨ s2 ≠ []) :
    spread_RO s1 s2 =
      some (3 * ((lcs_sw s1 s2).1 : ℚ) /
        ((s1.length : ℚ) + (s2.length : ℚ) + (((lcs_sw s1 s2).2 : Int) : ℚ))) ∧
    ((lcs_sw s1 s2).1 = 0 → spread_RO s1 s2 = some 0) := by
  have hnone : ¬(s1 = [] ∧ s2 = []) := by
    rintro ⟨rfl, rfl⟩
    rcases h with h | h <;> exact h rfl
  have hd : ((s1.length : ℚ) + (s2.length : ℚ) + (((lcs_sw s1 s2).2 : Int) : ℚ)) ≠ 0 := by
    intro hc
    apply hnone
    apply (spread_RO_none_iff s1 s2).mp
    simp [spread_RO, hc]
  constructor
  · unfold spread_RO
    simp only
    rw [if_neg hd]
  · intro h0
    unfold spread_RO
    simp only
    rw [if_neg hd, h0]
    norm_num

/-- C4 witness: at `s1 = "a"`, `s2 = "b"` the score is a defined 0. -/
theorem c4_spread_RO_defined_witness : spread_RO ['a'] ['b'] = some 0 := by
  have h := c4_spread_RO_defined ['a'] ['b'] (Or.inl (by decide))
  exact h.2 (by decide)

/-- C5 counterexample: with an empty query and an entry whose key is
empty, the scorer raises `ZeroDivisionError` and `search` fails instead
of returning `min(n, |d|) = 1` results. -/
theorem c5_counterexample :
    search ([] : List Char) [(([] : List Char), (0 : Nat))] 1 = none := by
  have h : spread_RO (preProcess ([] : List Char)) (preProcess ([] : List Char)) = none :=
    (spread_RO_none_iff _ _).mpr ⟨rfl, rfl⟩
  simp [search, List.mapM.loop, h]

/-- C5 (amended): provided no entry key and the query normalize to the
empty string simultaneously (otherwise the scorer raises), `search`
returns `min(n.toNat, |d|)` results (none for `n ≤ 0`), drawn from the
dictionary, listed with non-increasing scores, and every returned
entry's score is at least every omitted entry's score. -/
theorem c5_search_ranked {α : Type} (query : List Char)
    (d : List (List Char × α)) (n : Int)
    (h : ∀ kv ∈ d, ¬(preProcess kv.1 = [] ∧ preProcess query = [])) :
    ∃ l, search query d n = some l ∧
      (0 ≤ n → l.length = min n.toNat d.length) ∧
      (n ≤ 0 → l = []) ∧
      l.Pairwise (fun a b => searchScore query b ≤ searchScore query a) ∧
      (∀ a ∈ l, a ∈ d) ∧
      (∀ a ∈ l, ∀ b ∈ d, b ∉ l → searchScore query b ≤ searchScore query a) :=
  search_spec query d n h

/-- C5 witness: the two-entry literal scenario of the spec. -/
theorem c5_search_ranked_witness :
    ∃ l, search "guaha".toList
        [("guaha".toList, "exists"), ("guaiya".toList, "to love")] 1 = some l ∧
      (0 ≤ (1 : Int) → l.length = min (1 : Int).toNat
        [("guaha".toList, "exists"), ("guaiya".toList, "to love")].length) ∧
      ((1 : Int) ≤ 0 → l = []) ∧
      l.Pairwise (fun a b => searchScore "guaha".toList b ≤ searchScore "guaha".toList a) ∧
      (∀ a ∈ l, a ∈ [("guaha".toList, "exists"), ("guaiya".toList, "to love")]) ∧
      (∀ a ∈ l, ∀ b ∈ [("guaha".toList, "exists"), ("guaiya".toList, "to love")],
        b ∉ l → searchScore "guaha".toList b ≤ searchScore "guaha".toList a) :=
  c5_search_ranked "guaha".toList
    [("guaha".toList, "exists"), ("guaiya".toList, "to love")] 1
    (by
      intro kv hkv
      simp only [List.mem_cons, List.not_mem_nil, or_false] at hkv
      rcases hkv with rfl | rfl <;> decide)

/-- C6: for non-empty `s`, `spread_RO s s` is exactly 1, with
`lcs_sw s s = (|s|, |s|)`. -/
theorem c6_identity (s : List Char) (h : s ≠ []) :
    spread_RO s s = some 1 ∧ lcs_sw s s = (s.length, (s.length : Int)) :=
  spread_RO_self s h

/-- C6 witness: the particular case `s = "abc"`. -/
theorem c6_identity_witness :
    spread_RO "abc".toList "abc".toList = some 1 ∧
    lcs_sw "abc".toList "abc".toList = ("abc".toList.length, ("abc".toList.length : Int)) :=
  c6_identity "abc".toList (by decide)

/-- C7: `0 ≤ length ≤ min (|s1|, |s2|)`; `window = 0` iff `length = 0`;
`length ≤ window ≤ |s1|` when `length > 0`; and every DP cell satisfies
`end - begin ≥ length` and `end ≥ begin`. -/
theorem c7_bounds (s1 s2 : List Char) (i j : Nat)
    (hi : i ≤ s1.length) (hj : j ≤ s2.length) :
    (lcs_sw s1 s2).1 ≤ min s1.length s2.length ∧
    ((lcs_sw s1 s2).2 = 0 ↔ (lcs_sw s1 s2).1 = 0) ∧
    (0 < (lcs_sw s1 s2).1 →
      ((lcs_sw s1 s2).1 : Int) ≤ (lcs_sw s1 s2).2 ∧
        (lcs_sw s1 s2).2 ≤ (s1.length : Int)) ∧
    ((lcsCell s1 s2 i j).1 : Int) ≤
        (lcsCell s1 s2 i j).2.2 - (lcsCell s1 s2 i j).2.1 ∧
    (lcsCell s1 s2 i j).2.1 ≤ (lcsCell s1 s2 i j).2.2 :=
  lcs_sw_bounds s1 s2 i j hi hj

/-- C7 witness: the bounds at `s1 = "abc"`, `s2 = "ac"`, cell `(1, 1)`. -/
theorem c7_bounds_witness :
    (lcs_sw "abc".toList "ac".toList).1 ≤ min "abc".toList.length "ac".toList.length ∧
    ((lcs_sw "abc".toList "ac".toList).2 = 0 ↔ (lcs_sw "abc".toList "ac".toList).1 = 0) ∧
    (0 < (lcs_sw "abc".toList "ac".toList).1 →
      ((lcs_sw "abc".toList "ac".toList).1 : Int) ≤ (lcs_sw "abc".toList "ac".toList).2 ∧
        (lcs_sw "abc".toList "ac".toList).2 ≤ ("abc".toList.length : Int)) ∧
    ((lcsCell "abc".toList "ac".toList 1 1).1 : Int) ≤
        (lcsCell "abc".toList "ac".toList 1 1).2.2 -
          (lcsCell "abc".toList "ac".toList 1 1).2.1 ∧
    (lcsCell "abc".toList "ac".toList 1 1).2.1 ≤
      (lcsCell "abc".toList "ac".toList 1 1).2.2 :=
  c7_bounds "abc".toList "ac".toList 1 1 (by decide) (by decide)

/-- C8: the length component of `lcs_sw` is symmetric in its arguments,
while the window component is not (witnessed by "abbc"/"ac"). -/
theorem c8_length_symm :
    (∀ s1 s2 : List Char, (lcs_sw s1 s2).1 = (lcs_sw s2 s1).1) ∧
    (lcs_sw "abbc".toList "ac".toList).2 ≠ (lcs_sw "ac".toList "abbc".toList).2 :=
  lcs_sw_len_symm

/-- C10: `preProcess` is idempotent. -/
theorem c10_preProcess_idem (w : List Char) :
    preProcess (preProcess w) = preProcess w := by
  rw [preProcess_eq_map (preProcess w), preProcess_eq_map w, List.map_map]
  exact List.map_congr_left fun c _ => by
    simp only [Function.comp_apply]
    exact preChar_idem c

/-- C9 counterexample: at `a = "aba"`, `b = "bca"` the difflib ratio
used by `ratioTest` is `1/3` (one matched character under
Ratcliff-Obershelp), while the LCS-based ratio `2L/(|a|+|b|)` is `2/3`
(the longest common subsequence "ba" has length 2). -/
theorem c9_counterexample :
    ratioTest "aba".toList "bca".toList ≠
      2 * (lcsSpecLen "aba".toList "bca".toList : ℚ) /
        (("aba".toList.length : ℚ) + ("bca".toList.length : ℚ)) ∧
    ratioTest "aba".toList "bca".toList = 1 / 3 ∧
    lcsSpecLen "aba".toList "bca".toList = 2 := by
  have hm : Difflib.matchesTotal "aba".toList "bca".toList = 1 := by decide
  have hl : lcsSpecLen "aba".toList "bca".toList = 2 := by decide
  have hr : ratioTest "aba".toList "bca".toList = 1 / 3 := by
    unfold ratioTest Difflib.ratio Difflib.calculateRatio
    rw [hm]
    norm_num
  refine ⟨?_, hr, hl⟩
  rw [hr, hl]
  norm_num

/-- C9 (amended): `ratioTest` is difflib's Ratcliff-Obershelp ratio
(which can be smaller than the LCS ratio), and `bestRatio` is the
maximum, floored at the initial 0, of the pairwise ratios over the
Cartesian product of the two token lists (the pair `(w1, w2)` being
scored with `seq1 = w2`, `seq2 = w1`). -/
theorem c9_bestRatio_max (l1 l2 : List (List Char)) :
    0 ≤ bestRatio l1 l2 ∧
    (∀ w1 ∈ l1, ∀ w2 ∈ l2, ratioTest w2 w1 ≤ bestRatio l1 l2) ∧
    (bestRatio l1 l2 = 0 ∨
      ∃ w1 ∈ l1, ∃ w2 ∈ l2, bestRatio l1 l2 = ratioTest w2 w1) := by
  have hstep : ∀ (a : ℚ) (w1 : List Char),
      a ≤ l2.foldl (fun acc w2 => max (Difflib.ratio w2 w1) acc) a :=
    fun a w1 => foldl_mono_ge _ (fun b w2 => le_max_right (Difflib.ratio w2 w1) b) l2 a
  refine ⟨foldl_mono_ge _ hstep l1 0, ?_, ?_⟩
  · have key : ∀ (l : List (List Char)) (acc : ℚ), ∀ w1 ∈ l, ∀ w2 ∈ l2,
        Difflib.ratio w2 w1 ≤
          l.foldl (fun acc w1 =>
            l2.foldl (fun acc w2 => max (Difflib.ratio w2 w1) acc) acc) acc := by
      intro l
      induction l with
      | nil => intro acc w1 hw1; simp at hw1
      | cons y l ih =>
        intro acc w1 hw1 w2 hw2
        rcases List.mem_cons.mp hw1 with rfl | hw1
        · rw [List.foldl_cons]
          exact le_trans (foldl_max_ge_mem (fun w2 => Difflib.ratio w2 w1) l2 acc w2 hw2)
            (foldl_mono_ge _ hstep l _)
        · rw [List.foldl_cons]
          exact ih _ w1 hw1 w2 hw2
    exact fun w1 hw1 w2 hw2 => key l1 0 w1 hw1 w2 hw2
  · exact foldl_best_cases l2 l1 0

/-- C9 witness: the pairwise bound evaluated on concrete token lists. -/
theorem c9_bestRatio_max_witness :
    ratioTest "axc".toList "abc".toList ≤
      bestRatio ["abc".toList] ["axc".toList] :=
  (c9_bestRatio_max ["abc".toList] ["axc".toList]).2.1 "abc".toList
    (by decide) "axc".toList (by decide)

end ChamorroSearch
